import Mathlib

/-!
# sarama-example: handler dispatch, subscription set-up and the emission loop

A shallow embedding of `main.go`.

* Go strings are Lean strings; the splitting of a broker address list is
  written over lists of characters, generically in the element type, so the
  same statements hold for the bytes of a Go string.
* A Go `map[string]V` is a list of entries whose keys are pairwise
  different.  The order of the list stands for the order in which one
  `range` over the map yields the entries, which Go leaves unspecified:
  every order is a value of the type.
* A Go `error` is a value of `GoError`; `nil` is `none`.
* A handler is a Go function with effects.  It is a function on a world
  state `σ` that returns its error result and the new world.
* The consumer session is the log of calls made on it and to the handlers.
* A Go map is a reference: the map a handler value stores is the caller's map,
  and a handler that is a closure over it can change it.  The namespace
  `Shared` has `ConsumeClaim` over a heap that holds the contents of that map,
  with handlers that act on the whole heap; `ConsumeClaim` outside it is the
  case of handlers that leave the map alone.
* The goroutine of `main` is a step machine whose schedule interleaves the
  loop's own steps with the firing of the cancellation signal.
-/

namespace SaramaExample

/-! ## Data model -/

/-- Values of Go's `error` interface that are not `nil`:
`errorString` is what `fmt.Errorf` builds from a format without `%w`,
`wrapError` is an error that wraps another one. -/
inductive GoError where
  | errorString (s : String)
  | wrapError (s : String) (inner : GoError)
  deriving DecidableEq, Repr

/-- The `context.Context` handed out by the session. -/
structure Context where
  id : Nat
  deriving DecidableEq, Repr

/-- The fields of `sarama.ConsumerMessage` that identify and carry a message. -/
structure ConsumerMessage where
  Topic : String
  Partition : Nat
  Offset : Nat
  Key : String
  Value : String
  deriving DecidableEq, Repr

/-- The fields of `sarama.ProducerMessage` set by `main`. -/
structure ProducerMessage where
  Topic : String
  Value : String
  deriving DecidableEq, Repr

/-- `ConsumerFn`: `func(ctx, message) error`, acting on the world `σ`. -/
abbrev ConsumerFn (σ : Type) : Type :=
  Context → ConsumerMessage → σ → Option GoError × σ

/-- A Go `map[string]V`: entries with pairwise different keys. -/
structure GoMap (V : Type) where
  entries : List (String × V)
  nodup : (entries.map Prod.fst).Nodup

namespace GoMap

/-- `make(map[string]V)`. -/
def empty {V : Type} : GoMap V := ⟨[], List.nodup_nil⟩

/-- `len(m)`. -/
def len {V : Type} (m : GoMap V) : Nat := m.entries.length

/-- The keys of the map, in the order a `range` yields them. -/
def keys {V : Type} (m : GoMap V) : List String := m.entries.map Prod.fst

/-- Lookup in an entry list: `v, ok := m[k]`. -/
def lookupEntries {V : Type} (k : String) : List (String × V) → Option V
  | [] => none
  | (k', v) :: rest => if k' = k then some v else lookupEntries k rest

/-- `v, ok := m[k]`: `some v` when `ok`, `none` otherwise. -/
def lookup {V : Type} (m : GoMap V) (k : String) : Option V :=
  lookupEntries k m.entries

end GoMap

/-- `handlerMapConsumerGroupHandler`. -/
structure handlerMapConsumerGroupHandler (σ : Type) where
  handlers : GoMap (ConsumerFn σ)

/-- `NewConsumerGroupHandler`. -/
def NewConsumerGroupHandler {σ : Type} (handlers : GoMap (ConsumerFn σ)) :
    handlerMapConsumerGroupHandler σ :=
  { handlers := handlers }

/-- What a run of `ConsumeClaim` does that is visible outside it: a call of a
handler, and a call of `sess.MarkMessage`. -/
inductive Event (σ : Type) where
  | invoke (fn : ConsumerFn σ) (ctx : Context) (msg : ConsumerMessage)
  | mark (msg : ConsumerMessage) (metadata : String)

/-- The state `ConsumeClaim` runs in: the handler value with its registry,
the world the handlers act on, and the log of calls so far. -/
structure State (σ : Type) where
  h : handlerMapConsumerGroupHandler σ
  world : σ
  log : List (Event σ)

/-- `fmt.Errorf("missing handler for topic: %s", topic)`. -/
def missingHandler (topic : String) : GoError :=
  GoError.errorString ("missing handler for topic: " ++ topic)

/-- `Setup`: the session is not used, so the state is of any type. -/
def Setup {S : Type} (st : S) : Option GoError × S := (none, st)

/-- `Cleanup`: the session is not used, so the state is of any type. -/
def Cleanup {S : Type} (st : S) : Option GoError × S := (none, st)

/-- `ConsumeClaim`: the `range` over `claim.Messages()`, the channel being
closed after the given messages; `ctx` is `sess.Context()`. -/
def ConsumeClaim {σ : Type} (ctx : Context) :
    List ConsumerMessage → State σ → Option GoError × State σ
  | [], st => (none, st)
  | msg :: rest, st =>
    match st.h.handlers.lookup msg.Topic with
    | none => (some (missingHandler msg.Topic), st)
    | some handler =>
      match handler ctx msg st.world with
      | (some err, w) =>
        (some err, { st with world := w, log := st.log ++ [Event.invoke handler ctx msg] })
      | (none, w) =>
        ConsumeClaim ctx rest
          { st with
            world := w
            log := st.log ++ [Event.invoke handler ctx msg, Event.mark msg ""] }

/-! ## Handlers that share the registry map -/

/-- `delete(m, k)`. -/
def GoMap.delete {V : Type} (m : GoMap V) (k : String) : GoMap V :=
  ⟨m.entries.filter (fun e => e.1 ≠ k),
    List.Nodup.sublist (List.Sublist.map Prod.fst (List.filter_sublist m.entries)) m.nodup⟩

/-- The heap of a run in which the handlers are closures that may hold the
registry map: the contents of the map `h.handlers` refers to, and the rest of
the world.  `V` is the type of the function values stored in the map. -/
structure Heap (V σ : Type) where
  handlers : GoMap V
  world : σ

/-- The state `ConsumeClaim` runs in when the map is shared: the heap and the
log of calls so far. -/
structure SharedState (V σ : Type) where
  heap : Heap V σ
  log : List (Event (Heap V σ))

/-- `ConsumeClaim` with the registry read from the heap at each message;
`call` runs a function value of the map as a `ConsumerFn` on the heap. -/
def Shared.ConsumeClaim {V σ : Type} (call : V → ConsumerFn (Heap V σ)) (ctx : Context) :
    List ConsumerMessage → SharedState V σ → Option GoError × SharedState V σ
  | [], st => (none, st)
  | msg :: rest, st =>
    match st.heap.handlers.lookup msg.Topic with
    | none => (some (missingHandler msg.Topic), st)
    | some handler =>
      match call handler ctx msg st.heap with
      | (some err, hp) =>
        (some err, { heap := hp, log := st.log ++ [Event.invoke (call handler) ctx msg] })
      | (none, hp) =>
        Shared.ConsumeClaim call ctx rest
          { heap := hp
            log := st.log ++ [Event.invoke (call handler) ctx msg, Event.mark msg ""] }

/-- The state left by a list of handler calls made one after the other. -/
def stateAfter {S : Type} : List (ConsumerFn S × Context × ConsumerMessage) → S → S
  | [], s => s
  | (f, c, m) :: rest, s => stateAfter rest (f c m s).2

/-- A handler that acts on the world only, run on the heap. -/
def confined {σ : Type} (f : ConsumerFn σ) : ConsumerFn (Heap (ConsumerFn σ) σ) :=
  fun c m hp => ((f c m hp.world).1, { hp with world := (f c m hp.world).2 })

/-- The function values of an example: `keep` does what `handler` does,
`drop` is a closure over the registry map that deletes the topic of the
message it handles and returns `nil`. -/
inductive Fn where
  | keep
  | drop
  deriving DecidableEq, Repr

/-- What calling the function values of the example does. -/
def callFn : Fn → ConsumerFn (Heap Fn (List String))
  | Fn.keep => fun _ message hp =>
    (none, { hp with world := hp.world ++ ["handle message: " ++ message.Value] })
  | Fn.drop => fun _ message hp =>
    (none, { hp with handlers := hp.handlers.delete message.Topic })

/-- A session state whose registry is `map[string]ConsumerFn{topic: drop}`. -/
def dropStart : SharedState Fn (List String) :=
  { heap := { handlers := ⟨[("my-topic", Fn.drop)], by simp⟩, world := [] }, log := [] }

/-! ## Reading a log -/

/-- The `MarkMessage` calls of a log, in order: message and metadata. -/
def marks {σ : Type} : List (Event σ) → List (ConsumerMessage × String)
  | [] => []
  | Event.mark m md :: rest => (m, md) :: marks rest
  | Event.invoke _ _ _ :: rest => marks rest

/-- The handler calls of a log, in order: function, context and message. -/
def invocations {σ : Type} :
    List (Event σ) → List (ConsumerFn σ × Context × ConsumerMessage)
  | [] => []
  | Event.invoke f c m :: rest => (f, c, m) :: invocations rest
  | Event.mark _ _ :: rest => invocations rest

/-- Every message of the list has a registered topic and a handler call that
returns no error, the handlers being called in order from world `w`; the
result is the world they leave. -/
def handleAll {σ : Type} (reg : GoMap (ConsumerFn σ)) (ctx : Context) :
    List ConsumerMessage → σ → Option σ
  | [], w => some w
  | m :: ms, w =>
    match reg.lookup m.Topic with
    | none => none
    | some f =>
      match f ctx m w with
      | (none, w') => handleAll reg ctx ms w'
      | (some _, _) => none

/-- The handler calls due for a list of messages: for each message with a
registered topic, the handler stored under that topic, the session's context
and the message. -/
def calls {σ : Type} (reg : GoMap (ConsumerFn σ)) (ctx : Context) :
    List ConsumerMessage → List (ConsumerFn σ × Context × ConsumerMessage)
  | [] => []
  | m :: ms =>
    match reg.lookup m.Topic with
    | none => calls reg ctx ms
    | some f => (f, ctx, m) :: calls reg ctx ms

/-- The log entries of messages handled without error: the handler call, then
the acknowledgment with empty metadata. -/
def okLog {σ : Type} (reg : GoMap (ConsumerFn σ)) (ctx : Context) :
    List ConsumerMessage → List (Event σ)
  | [] => []
  | m :: ms =>
    match reg.lookup m.Topic with
    | none => okLog reg ctx ms
    | some f => Event.invoke f ctx m :: Event.mark m "" :: okLog reg ctx ms

/-- The message at which the run stops by a handler error, after `n` messages
handled without error: the next message when its topic is registered. -/
def failing {σ : Type} (reg : GoMap (ConsumerFn σ)) (msgs : List ConsumerMessage)
    (n : Nat) : List ConsumerMessage :=
  match msgs.drop n with
  | [] => []
  | m :: _ => if (reg.lookup m.Topic).isSome then [m] else []

/-! ## The handler of `main` -/

/-- `consumerGroup`. -/
def consumerGroup : String := "my-consumer-group"

/-- `topic`. -/
def topic : String := "my-topic"

/-- `handler`: prints one line with `log.Printf` and returns `nil`; the world
is the list of lines printed. -/
def handler : ConsumerFn (List String) :=
  fun _ message w => (none, w ++ ["handle message: " ++ message.Value])

/-- The registry `main` passes: `map[string]ConsumerFn{topic: handler}`. -/
def mainHandlers : GoMap (ConsumerFn (List String)) :=
  ⟨[(topic, handler)], by simp⟩

/-- A handler that returns the error `rejected`. -/
def rejecting : ConsumerFn (List String) :=
  fun _ _ w => (some (GoError.errorString "rejected"), w)

/-- A registry of two topics: `handler` under `topic`, `rejecting` under
`"bad-topic"`. -/
def twoHandlers : GoMap (ConsumerFn (List String)) :=
  ⟨[(topic, handler), ("bad-topic", rejecting)], by decide⟩

/-- A message of the given topic and offset. -/
def sample (t : String) (offset : Nat) : ConsumerMessage :=
  { Topic := t, Partition := 0, Offset := offset, Key := "", Value := "v" }

/-- A session state with the given registry, nothing printed, nothing logged. -/
def start (reg : GoMap (ConsumerFn (List String))) : State (List String) :=
  { h := NewConsumerGroupHandler reg, world := [], log := [] }

/-! ## Broker addresses: `strings.Split(os.Getenv(name), ",")` -/

/-- `strings.Count(s, sep)` for a separator of one element. -/
def Count {α : Type} [DecidableEq α] (sep : α) : List α → Nat
  | [] => 0
  | c :: cs => (if c = sep then 1 else 0) + Count sep cs

/-- `strings.Index(s, sep)` for a separator of one element; `none` is `-1`. -/
def Index {α : Type} [DecidableEq α] (sep : α) : List α → Option Nat
  | [] => none
  | c :: cs => if c = sep then some 0 else (Index sep cs).map (fun m => m + 1)

/-- The loop `for i < n` of `genSplit`, entered after `n--`: `k` is `n - i`,
the number of cuts still allowed; the result is `a[i:]` as returned. -/
def genSplitLoop {α : Type} [DecidableEq α] (sep : α) : Nat → List α → List (List α)
  | 0, s => [s]
  | k + 1, s =>
    match Index sep s with
    | none => [s]
    | some m => s.take m :: genSplitLoop sep k (s.drop (m + 1))

/-- `genSplit(s, sep, 0, -1)` for a separator of one element. -/
def genSplit {α : Type} [DecidableEq α] (sep : α) (s : List α) : List (List α) :=
  let n := Count sep s + 1
  let n := if n > s.length + 1 then s.length + 1 else n
  genSplitLoop sep (n - 1) s

/-- `strings.Split(s, sep)` for a separator of one character. -/
def Split (s : String) (sep : Char) : List String :=
  (genSplit sep s.data).map String.mk

/-- `strings.Join(elems, sep)`. -/
def Join (elems : List String) (sep : String) : String :=
  match elems with
  | [] => ""
  | [a] => a
  | a :: b :: rest => a ++ sep ++ Join (b :: rest) sep

/-! ## `InitConsumerGroup` and `InitProducer` -/

/-- What `gracesarama.NewConsumerGroupRunner` is given. -/
structure ConsumerGroupRunner (κ σ : Type) where
  brokers : List String
  group : String
  config : κ
  topics : List String
  handler : handlerMapConsumerGroupHandler σ

/-- What `gracesarama.NewProducerRunner` is given. -/
structure ProducerRunner (κ : Type) where
  brokers : List String
  config : κ

/-- The assignment `a[i] = v`; an index out of range panics (`none`). -/
def sliceSet {α : Type} (a : List α) (i : Nat) (v : α) : Option (List α) :=
  if i < a.length then some (a.set i v) else none

/-- The loop `for topic := range handlers { topics[i] = topic; i++ }`. -/
def fillTopics {V : Type} : List (String × V) → List String → Nat → Option (List String)
  | [], topics, _ => some topics
  | (topic, _) :: rest, topics, i =>
    match sliceSet topics i topic with
    | none => none
    | some topics' => fillTopics rest topics' (i + 1)

/-- `InitConsumerGroup`; `env` is `os.Getenv`, a `nil` map is `none`, and a
panic is `none`.  The two logging callbacks set on the runner are left out. -/
def InitConsumerGroup {κ σ : Type} (env : String → String) (config : κ)
    (consumerGroup : String) (handlers : Option (GoMap (ConsumerFn σ))) :
    Option (ConsumerGroupRunner κ σ) :=
  let handlers := match handlers with
    | none => GoMap.empty
    | some m => m
  let topics := List.replicate handlers.len ""
  match fillTopics handlers.entries topics 0 with
  | none => none
  | some topics =>
    some { brokers := Split (env "KAFKA_CONSUMER_ADDRESS") ','
           group := consumerGroup
           config := config
           topics := topics
           handler := NewConsumerGroupHandler handlers }

/-- `InitProducer`; the two logging callbacks set on the runner are left out. -/
def InitProducer {κ : Type} (env : String → String) (saramaCfg : κ) : ProducerRunner κ :=
  { brokers := Split (env "KAFKA_PRODUCER_ADDRESS") ','
    config := saramaCfg }

/-! ## The emission loop of `main` -/

/-- Where the goroutine is: blocked in the `select`, at the test `x < 5` of
the inner loop with the given `x`, or returned. -/
inductive Pc where
  | select
  | body (x : Nat)
  | exited
  deriving DecidableEq, Repr

/-- What an execution of the loop shows: the cancellation signal firing, a
message sent on `produceInput`, the goroutine returning. -/
inductive Ev where
  | fired
  | sent (msg : ProducerMessage)
  | exited
  deriving DecidableEq, Repr

/-- The goroutine and the signal: `done` says whether `g.Context().Done()` is
closed. -/
structure LoopState where
  pc : Pc
  done : Bool
  trace : List Ev
  deriving DecidableEq, Repr

/-- The steps of a schedule: the context is cancelled; the `select` takes the
case `<-g.Context().Done()`; the `select` takes the case `<-time.After(...)`;
the inner loop does one test of `x < 5` with the send that follows it. -/
inductive Action where
  | fire
  | caseDone
  | caseTimer
  | iter
  deriving DecidableEq, Repr

/-- The message built in the body of the inner loop. -/
def message (x : Nat) : ProducerMessage :=
  { Topic := topic, Value := "message-" ++ toString x }

/-- One step; `none` when the step is not enabled in the state.  The signal
fires once, a later cancellation changing nothing; the case `Done` needs the
signal to have fired; the timer case is enabled at every `select`, the passing
of time being left to the schedule. -/
def step (st : LoopState) : Action → Option LoopState
  | Action.fire =>
    if st.done then some st
    else some { st with done := true, trace := st.trace ++ [Ev.fired] }
  | Action.caseDone =>
    match st.pc with
    | Pc.select =>
      if st.done then some { st with pc := Pc.exited, trace := st.trace ++ [Ev.exited] }
      else none
    | _ => none
  | Action.caseTimer =>
    match st.pc with
    | Pc.select => some { st with pc := Pc.body 0 }
    | _ => none
  | Action.iter =>
    match st.pc with
    | Pc.body x =>
      if x < 5 then
        some { st with pc := Pc.body (x + 1), trace := st.trace ++ [Ev.sent (message x)] }
      else some { st with pc := Pc.select }
    | _ => none

/-- A schedule run from a state. -/
def run : LoopState → List Action → Option LoopState
  | st, [] => some st
  | st, a :: rest =>
    match step st a with
    | none => none
    | some st' => run st' rest

/-- The goroutine when it starts. -/
def init : LoopState := { pc := Pc.select, done := false, trace := [] }

/-- The messages sent on `produceInput` in a trace, in order. -/
def sent : List Ev → List ProducerMessage
  | [] => []
  | Ev.sent m :: rest => m :: sent rest
  | _ :: rest => sent rest

/-- The part of a trace after the first occurrence of an event. -/
def after (e : Ev) : List Ev → List Ev
  | [] => []
  | e' :: rest => if e' = e then rest else after e rest

/-- The steps the loop takes for one timer firing: the timer case, five sends
and the test that ends the inner loop. -/
def cycle : List Action :=
  Action.caseTimer :: List.replicate 6 Action.iter

/-- The five messages of one batch, as the specification names them. -/
def batch : List ProducerMessage :=
  [ { Topic := "my-topic", Value := "message-0" },
    { Topic := "my-topic", Value := "message-1" },
    { Topic := "my-topic", Value := "message-2" },
    { Topic := "my-topic", Value := "message-3" },
    { Topic := "my-topic", Value := "message-4" } ]

/-- The steps of a schedule that are the loop's own: all but the firing of
the signal. -/
def loopSteps (acts : List Action) : List Action :=
  acts.filter (fun a => a ≠ Action.fire)

/-- Two states agree on what the loop itself sees and did: the place in the
code and the messages sent. -/
def SameLoop (a b : LoopState) : Prop :=
  a.pc = b.pc ∧ sent a.trace = sent b.trace

/-- What holds of every state of an execution: the goroutine's return is in
the trace exactly when the goroutine has returned, it is then the last event
and the signal has fired; and a fired signal is in the trace. -/
def Inv (st : LoopState) : Prop :=
  (st.pc ≠ Pc.exited → Ev.exited ∉ st.trace) ∧
  (st.pc = Pc.exited →
    st.done = true ∧ ∃ tr, st.trace = tr ++ [Ev.exited] ∧ Ev.exited ∉ tr) ∧
  (st.done = true → Ev.fired ∈ st.trace)

/-! ## Lemmas on logs -/

theorem marks_append {σ : Type} (a b : List (Event σ)) :
    marks (a ++ b) = marks a ++ marks b := by
  induction a with
  | nil => rfl
  | cons e t ih => cases e <;> simp [marks, ih]

theorem invocations_append {σ : Type} (a b : List (Event σ)) :
    invocations (a ++ b) = invocations a ++ invocations b := by
  induction a with
  | nil => rfl
  | cons e t ih => cases e <;> simp [invocations, ih]

theorem invocations_okLog {σ : Type} (reg : GoMap (ConsumerFn σ)) (ctx : Context)
    (msgs : List ConsumerMessage) : invocations (okLog reg ctx msgs) = calls reg ctx msgs := by
  induction msgs with
  | nil => rfl
  | cons m ms ih =>
    cases hl : reg.lookup m.Topic <;> simp [okLog, calls, hl, invocations, ih]

theorem calls_append {σ : Type} (reg : GoMap (ConsumerFn σ)) (ctx : Context)
    (a b : List ConsumerMessage) : calls reg ctx (a ++ b) = calls reg ctx a ++ calls reg ctx b := by
  induction a with
  | nil => rfl
  | cons m ms ih =>
    cases hl : reg.lookup m.Topic <;> simp [calls, hl, ih]

theorem handleAll_append {σ : Type} (reg : GoMap (ConsumerFn σ)) (ctx : Context)
    (p q : List ConsumerMessage) :
    ∀ w, handleAll reg ctx (p ++ q) w = (handleAll reg ctx p w).bind (handleAll reg ctx q) := by
  induction p with
  | nil => intro w; rfl
  | cons m ms ih =>
    intro w
    simp only [List.cons_append, handleAll]
    cases reg.lookup m.Topic with
    | none => rfl
    | some f =>
      rcases hf : f ctx m w with ⟨e, w1⟩
      cases e with
      | none => simpa [hf] using ih w1
      | some e => simp [hf]

/-- Messages handled without error are acknowledged one by one. -/
theorem marks_okLog {σ : Type} (reg : GoMap (ConsumerFn σ)) (ctx : Context)
    (msgs : List ConsumerMessage) :
    ∀ w w', handleAll reg ctx msgs w = some w' →
      marks (okLog reg ctx msgs : List (Event σ)) = msgs.map (fun m => (m, "")) := by
  induction msgs with
  | nil => intro w w' _; rfl
  | cons m ms ih =>
    intro w w' h
    simp only [handleAll] at h
    cases hl : reg.lookup m.Topic with
    | none => simp [hl] at h
    | some f =>
      simp only [hl] at h
      rcases hf : f ctx m w with ⟨e, w1⟩
      cases e with
      | some e => simp [hf] at h
      | none =>
        simp only [hf] at h
        simp [okLog, hl, marks, ih w1 w' h]

/-- Messages handled without error are each called once. -/
theorem calls_messages {σ : Type} (reg : GoMap (ConsumerFn σ)) (ctx : Context)
    (msgs : List ConsumerMessage) :
    ∀ w w', handleAll reg ctx msgs w = some w' →
      (calls reg ctx msgs).map (fun c => c.2.2) = msgs := by
  induction msgs with
  | nil => intro w w' _; rfl
  | cons m ms ih =>
    intro w w' h
    simp only [handleAll] at h
    cases hl : reg.lookup m.Topic with
    | none => simp [hl] at h
    | some f =>
      simp only [hl] at h
      rcases hf : f ctx m w with ⟨e, w1⟩
      cases e with
      | some e => simp [hf] at h
      | none =>
        simp only [hf] at h
        simp [calls, hl, ih w1 w' h]

/-- The run over a prefix handled without error, whatever follows it. -/
theorem claim_run_initial {σ : Type} (ctx : Context) (pre rest : List ConsumerMessage) :
    ∀ (st : State σ) (w : σ), handleAll st.h.handlers ctx pre st.world = some w →
      ConsumeClaim ctx (pre ++ rest) st =
        ConsumeClaim ctx rest
          { st with world := w, log := st.log ++ okLog st.h.handlers ctx pre } := by
  induction pre with
  | nil =>
    intro st w h
    simp only [handleAll, Option.some.injEq] at h
    subst h
    simp [okLog]
  | cons m ms ih =>
    intro st w h
    simp only [handleAll] at h
    cases hl : st.h.handlers.lookup m.Topic with
    | none => simp [hl] at h
    | some f =>
      simp only [hl] at h
      rcases hf : f ctx m st.world with ⟨e, w1⟩
      cases e with
      | some e => simp [hf] at h
      | none =>
        simp only [hf] at h
        have := ih { st with world := w1
                             log := st.log ++ [Event.invoke f ctx m, Event.mark m ""] } w h
        simp only [List.cons_append, ConsumeClaim, hl, hf, okLog]
        exact this.trans (by simp)

/-- A message list is handled whole, or stops at a first message that has no
handler or whose handler returns an error. -/
theorem handleAll_cases {σ : Type} (reg : GoMap (ConsumerFn σ)) (ctx : Context)
    (msgs : List ConsumerMessage) :
    ∀ w, (∃ w', handleAll reg ctx msgs w = some w') ∨
      ∃ pre m post w1, msgs = pre ++ m :: post ∧ handleAll reg ctx pre w = some w1 ∧
        (reg.lookup m.Topic = none ∨
          ∃ f e w2, reg.lookup m.Topic = some f ∧ f ctx m w1 = (some e, w2)) := by
  induction msgs with
  | nil => intro w; exact Or.inl ⟨w, rfl⟩
  | cons m ms ih =>
    intro w
    cases hl : reg.lookup m.Topic with
    | none => exact Or.inr ⟨[], m, ms, w, rfl, rfl, Or.inl hl⟩
    | some f =>
      rcases hf : f ctx m w with ⟨e, w1⟩
      cases e with
      | some e => exact Or.inr ⟨[], m, ms, w, rfl, rfl, Or.inr ⟨f, e, w1, hl, hf⟩⟩
      | none =>
        rcases ih w1 with ⟨w', h⟩ | ⟨pre, m', post, w2, hm, hp, hstop⟩
        · exact Or.inl ⟨w', by simp [handleAll, hl, hf, h]⟩
        · exact Or.inr ⟨m :: pre, m', post, w2, by simp [hm],
            by simp [handleAll, hl, hf, hp], hstop⟩

/-- The run stops at a reached message that has no handler. -/
theorem claim_stops_missing {σ : Type} (ctx : Context) (pre post : List ConsumerMessage)
    (m : ConsumerMessage) (st : State σ) (w : σ)
    (hpre : handleAll st.h.handlers ctx pre st.world = some w)
    (hm : st.h.handlers.lookup m.Topic = none) :
    ConsumeClaim ctx (pre ++ m :: post) st =
      (some (missingHandler m.Topic),
        { st with world := w, log := st.log ++ okLog st.h.handlers ctx pre }) := by
  rw [claim_run_initial ctx pre (m :: post) st w hpre]
  simp [ConsumeClaim, hm]

/-- The run stops at a reached message whose handler returns an error. -/
theorem claim_stops_error {σ : Type} (ctx : Context)
    (pre post : List ConsumerMessage) (m : ConsumerMessage) (st : State σ) (w w2 : σ)
    (f : ConsumerFn σ) (e : GoError)
    (hpre : handleAll st.h.handlers ctx pre st.world = some w)
    (hm : st.h.handlers.lookup m.Topic = some f) (hf : f ctx m w = (some e, w2)) :
    ConsumeClaim ctx (pre ++ m :: post) st =
      (some e, { st with world := w2
                         log := st.log ++ okLog st.h.handlers ctx pre
                                  ++ [Event.invoke f ctx m] }) := by
  rw [claim_run_initial ctx pre (m :: post) st w hpre]
  simp [ConsumeClaim, hm, hf]

/-- The run over messages all handled without error. -/
theorem claim_runs_all {σ : Type} (ctx : Context) (msgs : List ConsumerMessage)
    (st : State σ) (w : σ) (h : handleAll st.h.handlers ctx msgs st.world = some w) :
    ConsumeClaim ctx msgs st =
      (none, { st with world := w, log := st.log ++ okLog st.h.handlers ctx msgs }) := by
  have := claim_run_initial ctx msgs [] st w h
  simpa [ConsumeClaim] using this


/-- A prefix that is handled without error is no longer than the part before
the message the run stops at. -/
theorem handled_le_of_stop {σ : Type} (reg : GoMap (ConsumerFn σ)) (ctx : Context)
    (pre post q : List ConsumerMessage) (m : ConsumerMessage) (w : σ)
    (hstop : handleAll reg ctx (pre ++ [m]) w = none) (hq : q <+: pre ++ m :: post)
    (hok : (handleAll reg ctx q w).isSome) : q.length ≤ pre.length := by
  by_contra hlt
  obtain ⟨t, ht⟩ := hq
  rcases List.append_eq_append_iff.mp ht with ⟨a, ha, _⟩ | ⟨c, hc, hc2⟩
  · apply hlt
    rw [ha]
    simp
  · cases c with
    | nil =>
      apply hlt
      rw [hc]
      simp
    | cons x c =>
      simp only [List.cons_append, List.cons.injEq] at hc2
      have hx : x = m := hc2.1.symm
      subst hx
      have : q = (pre ++ [x]) ++ c := by rw [hc]; simp
      rw [this, handleAll_append, hstop] at hok
      simp at hok

/-- The message after the handled prefix stops the run. -/
theorem handleAll_stop {σ : Type} (reg : GoMap (ConsumerFn σ)) (ctx : Context)
    (pre : List ConsumerMessage) (m : ConsumerMessage) (w w1 : σ)
    (hpre : handleAll reg ctx pre w = some w1)
    (hstop : reg.lookup m.Topic = none ∨
      ∃ f e w2, reg.lookup m.Topic = some f ∧ f ctx m w1 = (some e, w2)) :
    handleAll reg ctx (pre ++ [m]) w = none := by
  rw [handleAll_append, hpre]
  rcases hstop with hl | ⟨f, e, w2, hl, hf⟩
  · simp [handleAll, hl]
  · simp [handleAll, hl, hf]

/-! ## Handler dispatch -/

/-- C1: when every claimed message has a registered topic and every handler
call returns no error, `ConsumeClaim` returns `nil` and `MarkMessage` is called
once for each message, with empty metadata, in the order received, and for no
other message. -/
theorem consumeClaim_success {σ : Type} (ctx : Context) (msgs : List ConsumerMessage)
    (st : State σ) (w : σ)
    (h : handleAll st.h.handlers ctx msgs st.world = some w) :
    (ConsumeClaim ctx msgs st).1 = none ∧
      marks (ConsumeClaim ctx msgs st).2.log = marks st.log ++ msgs.map (fun m => (m, "")) := by
  rw [claim_runs_all ctx msgs st w h]
  exact ⟨rfl, by simp [marks_append, marks_okLog _ _ _ _ _ h]⟩

theorem consumeClaim_success_witness :
    handleAll (start mainHandlers).h.handlers ⟨7⟩ [sample topic 0, sample topic 1]
        (start mainHandlers).world
      = some ["handle message: v", "handle message: v"] ∧
    (ConsumeClaim ⟨7⟩ [sample topic 0, sample topic 1] (start mainHandlers)).1 = none ∧
    marks (ConsumeClaim ⟨7⟩ [sample topic 0, sample topic 1] (start mainHandlers)).2.log
      = marks (start mainHandlers).log ++
          [sample topic 0, sample topic 1].map (fun m => (m, "")) :=
  ⟨by decide, consumeClaim_success ⟨7⟩ [sample topic 0, sample topic 1] (start mainHandlers)
    ["handle message: v", "handle message: v"] (by decide)⟩

/-- C2: when a message whose topic is not in the registry is reached (the
messages before it were all handled without error), `ConsumeClaim` returns the
error `missing handler for topic: <topic>` for that topic; the handler calls
and the acknowledgments are those of the messages before it, so neither this
message nor a later one is handled or acknowledged. -/
theorem consumeClaim_unregistered {σ : Type} (ctx : Context)
    (pre post : List ConsumerMessage) (m : ConsumerMessage) (st : State σ) (w : σ)
    (hpre : handleAll st.h.handlers ctx pre st.world = some w)
    (hm : st.h.handlers.lookup m.Topic = none) :
    (ConsumeClaim ctx (pre ++ m :: post) st).1
        = some (GoError.errorString ("missing handler for topic: " ++ m.Topic)) ∧
      marks (ConsumeClaim ctx (pre ++ m :: post) st).2.log
        = marks st.log ++ pre.map (fun x => (x, "")) ∧
      invocations (ConsumeClaim ctx (pre ++ m :: post) st).2.log
        = invocations st.log ++ calls st.h.handlers ctx pre ∧
      (invocations (ConsumeClaim ctx (pre ++ m :: post) st).2.log).map (fun c => c.2.2)
        = (invocations st.log).map (fun c => c.2.2) ++ pre := by
  rw [claim_stops_missing ctx pre post m st w hpre hm]
  refine ⟨rfl, ?_, ?_, ?_⟩
  · simp [marks_append, marks_okLog _ _ _ _ _ hpre]
  · simp [invocations_append, invocations_okLog]
  · simp [invocations_append, invocations_okLog, calls_messages _ _ _ _ _ hpre]

theorem consumeClaim_unregistered_witness :
    (ConsumeClaim ⟨7⟩ ([sample topic 0] ++ sample "other" 1 :: [sample topic 2])
        (start mainHandlers)).1
        = some (GoError.errorString ("missing handler for topic: " ++ (sample "other" 1).Topic)) ∧
      marks (ConsumeClaim ⟨7⟩ ([sample topic 0] ++ sample "other" 1 :: [sample topic 2])
        (start mainHandlers)).2.log
        = marks (start mainHandlers).log ++ [sample topic 0].map (fun x => (x, "")) ∧
      invocations (ConsumeClaim ⟨7⟩ ([sample topic 0] ++ sample "other" 1 :: [sample topic 2])
        (start mainHandlers)).2.log
        = invocations (start mainHandlers).log ++
            calls (start mainHandlers).h.handlers ⟨7⟩ [sample topic 0] ∧
      (invocations (ConsumeClaim ⟨7⟩ ([sample topic 0] ++ sample "other" 1 :: [sample topic 2])
        (start mainHandlers)).2.log).map (fun c => c.2.2)
        = (invocations (start mainHandlers).log).map (fun c => c.2.2) ++ [sample topic 0] :=
  consumeClaim_unregistered ⟨7⟩ [sample topic 0] [sample topic 2] (sample "other" 1)
    (start mainHandlers) ["handle message: v"] (by decide) (by rfl)

/-- C3: when the handler registered for a reached message returns an error
`e`, `ConsumeClaim` returns `e` itself; `MarkMessage` is called for the
messages before it only, and the handler calls are those of the messages
before it followed by the failing call, so no later message is handled or
acknowledged. -/
theorem consumeClaim_handler_error {σ : Type} (ctx : Context)
    (pre post : List ConsumerMessage) (m : ConsumerMessage) (st : State σ) (w w2 : σ)
    (f : ConsumerFn σ) (e : GoError)
    (hpre : handleAll st.h.handlers ctx pre st.world = some w)
    (hm : st.h.handlers.lookup m.Topic = some f) (hf : f ctx m w = (some e, w2)) :
    (ConsumeClaim ctx (pre ++ m :: post) st).1 = some e ∧
      marks (ConsumeClaim ctx (pre ++ m :: post) st).2.log
        = marks st.log ++ pre.map (fun x => (x, "")) ∧
      invocations (ConsumeClaim ctx (pre ++ m :: post) st).2.log
        = invocations st.log ++ calls st.h.handlers ctx pre ++ [(f, ctx, m)] ∧
      (invocations (ConsumeClaim ctx (pre ++ m :: post) st).2.log).map (fun c => c.2.2)
        = (invocations st.log).map (fun c => c.2.2) ++ pre ++ [m] := by
  rw [claim_stops_error ctx pre post m st w w2 f e hpre hm hf]
  refine ⟨rfl, ?_, ?_, ?_⟩
  · simp [marks_append, marks_okLog _ _ _ _ _ hpre, marks]
  · simp [invocations_append, invocations_okLog, invocations]
  · simp [invocations_append, invocations_okLog, invocations,
      calls_messages _ _ _ _ _ hpre]

theorem consumeClaim_handler_error_witness :
    (ConsumeClaim ⟨7⟩ ([sample topic 0] ++ sample "bad-topic" 1 :: [sample topic 2])
        (start twoHandlers)).1 = some (GoError.errorString "rejected") ∧
      marks (ConsumeClaim ⟨7⟩ ([sample topic 0] ++ sample "bad-topic" 1 :: [sample topic 2])
        (start twoHandlers)).2.log
        = marks (start twoHandlers).log ++ [sample topic 0].map (fun x => (x, "")) ∧
      invocations (ConsumeClaim ⟨7⟩ ([sample topic 0] ++ sample "bad-topic" 1 :: [sample topic 2])
        (start twoHandlers)).2.log
        = invocations (start twoHandlers).log ++
            calls (start twoHandlers).h.handlers ⟨7⟩ [sample topic 0] ++
            [(rejecting, ⟨7⟩, sample "bad-topic" 1)] ∧
      (invocations (ConsumeClaim ⟨7⟩ ([sample topic 0] ++ sample "bad-topic" 1 :: [sample topic 2])
        (start twoHandlers)).2.log).map (fun c => c.2.2)
        = (invocations (start twoHandlers).log).map (fun c => c.2.2) ++ [sample topic 0] ++
            [sample "bad-topic" 1] :=
  consumeClaim_handler_error ⟨7⟩ [sample topic 0] [sample topic 2] (sample "bad-topic" 1)
    (start twoHandlers) ["handle message: v"] ["handle message: v"] rejecting
    (GoError.errorString "rejected") (by decide) (by rfl) (by rfl)

/-- C6: `j` messages are handled without error and the next one, when there
is one, stops the run, so the messages reached are the first `j + 1`; the
handler calls of the run are, for each reached message with a registered
topic and in order, one call of the handler stored under the message's topic,
with the session's context and that message. -/
theorem consumeClaim_handler_lookup {σ : Type} (ctx : Context)
    (msgs : List ConsumerMessage) (st : State σ) :
    ∃ j, j ≤ msgs.length ∧
      (handleAll st.h.handlers ctx (msgs.take j) st.world).isSome ∧
      (j < msgs.length → handleAll st.h.handlers ctx (msgs.take (j + 1)) st.world = none) ∧
      invocations (ConsumeClaim ctx msgs st).2.log
        = invocations st.log ++ calls st.h.handlers ctx (msgs.take (j + 1)) := by
  rcases handleAll_cases st.h.handlers ctx msgs st.world with
    ⟨w, h⟩ | ⟨pre, m, post, w1, hmsgs, hpre, hstop⟩
  · refine ⟨msgs.length, le_refl _, by simp [h], fun hlt => absurd hlt (lt_irrefl _), ?_⟩
    rw [claim_runs_all ctx msgs st w h]
    simp [invocations_append, invocations_okLog, List.take_of_length_le]
  · subst hmsgs
    have htake : (pre ++ m :: post).take pre.length = pre := by simp
    have htake1 : (pre ++ m :: post).take (pre.length + 1) = pre ++ [m] := by
      rw [List.take_append_eq_append_take]
      simp
    refine ⟨pre.length, by simp, by simp [htake, hpre], fun _ => ?_, ?_⟩
    · rw [htake1]
      exact handleAll_stop _ ctx pre m _ w1 hpre hstop
    · rw [htake1, calls_append]
      rcases hstop with hl | ⟨f, e, w2, hl, hf⟩
      · rw [claim_stops_missing ctx pre post m st w1 hpre hl]
        simp [invocations_append, invocations_okLog, calls, hl]
      · rw [claim_stops_error ctx pre post m st w1 w2 f e hpre hl hf]
        simp [invocations_append, invocations_okLog, invocations, calls, hl]

/-- The heap after `ConsumeClaim` is the one the handler calls of the run
leave, one after the other. -/
theorem shared_heap_after {V σ : Type} (call : V → ConsumerFn (Heap V σ)) (ctx : Context)
    (msgs : List ConsumerMessage) :
    ∀ st : SharedState V σ, ∃ new,
      (Shared.ConsumeClaim call ctx msgs st).2.log = st.log ++ new ∧
      (Shared.ConsumeClaim call ctx msgs st).2.heap = stateAfter (invocations new) st.heap := by
  induction msgs with
  | nil => intro st; exact ⟨[], by simp [Shared.ConsumeClaim], rfl⟩
  | cons m ms ih =>
    intro st
    cases hl : st.heap.handlers.lookup m.Topic with
    | none => exact ⟨[], by simp [Shared.ConsumeClaim, hl], by simp [Shared.ConsumeClaim, hl]; rfl⟩
    | some v =>
      rcases hf : call v ctx m st.heap with ⟨e, hp⟩
      cases e with
      | some e =>
        refine ⟨[Event.invoke (call v) ctx m], by simp [Shared.ConsumeClaim, hl, hf], ?_⟩
        simp [Shared.ConsumeClaim, hl, hf, invocations, stateAfter]
      | none =>
        obtain ⟨new, h1, h2⟩ := ih
          { heap := hp, log := st.log ++ [Event.invoke (call v) ctx m, Event.mark m ""] }
        refine ⟨[Event.invoke (call v) ctx m, Event.mark m ""] ++ new, ?_, ?_⟩
        · simp only [Shared.ConsumeClaim, hl, hf]
          rw [h1]
          simp
        · simp only [Shared.ConsumeClaim, hl, hf]
          rw [h2]
          simp [invocations, stateAfter, hf]

/-- Calls that leave the registry alone leave it as it was. -/
theorem stateAfter_handlers {V σ : Type}
    (cs : List (ConsumerFn (Heap V σ) × Context × ConsumerMessage)) :
    ∀ hp : Heap V σ, (∀ x ∈ cs, ∀ h : Heap V σ, (x.1 x.2.1 x.2.2 h).2.handlers = h.handlers) →
      (stateAfter cs hp).handlers = hp.handlers := by
  induction cs with
  | nil => intro hp _; rfl
  | cons x rest ih =>
    intro hp h
    obtain ⟨f, c, m⟩ := x
    simp only [stateAfter]
    rw [ih _ (fun y hy => h y (List.mem_cons_of_mem _ hy))]
    exact h (f, c, m) (List.mem_cons_self _ _) hp

/-- With handlers that act on the world only, the run over the shared heap is
the run of `ConsumeClaim`: same result, same registry, same world, same
acknowledgments. -/
theorem shared_confined {σ : Type} (ctx : Context) (msgs : List ConsumerMessage) :
    ∀ (st : State σ) (sst : SharedState (ConsumerFn σ) σ),
      sst.heap.handlers = st.h.handlers → sst.heap.world = st.world →
      marks sst.log = marks st.log →
      (Shared.ConsumeClaim confined ctx msgs sst).1 = (ConsumeClaim ctx msgs st).1 ∧
      (Shared.ConsumeClaim confined ctx msgs sst).2.heap.handlers
        = (ConsumeClaim ctx msgs st).2.h.handlers ∧
      (Shared.ConsumeClaim confined ctx msgs sst).2.heap.world
        = (ConsumeClaim ctx msgs st).2.world ∧
      marks (Shared.ConsumeClaim confined ctx msgs sst).2.log
        = marks (ConsumeClaim ctx msgs st).2.log := by
  induction msgs with
  | nil => intro st sst h1 h2 h3; exact ⟨rfl, h1, h2, h3⟩
  | cons m ms ih =>
    intro st sst h1 h2 h3
    cases hl : st.h.handlers.lookup m.Topic with
    | none =>
      have hl' : sst.heap.handlers.lookup m.Topic = none := by rw [h1, hl]
      simp only [Shared.ConsumeClaim, ConsumeClaim, hl, hl']
      exact ⟨trivial, h1, h2, h3⟩
    | some f =>
      have hl' : sst.heap.handlers.lookup m.Topic = some f := by rw [h1, hl]
      rcases hf : f ctx m st.world with ⟨e, w⟩
      have hf' : confined f ctx m sst.heap = (e, { sst.heap with world := w }) := by
        simp [confined, h2, hf]
      cases e with
      | some e =>
        simp only [Shared.ConsumeClaim, ConsumeClaim, hl, hl', hf, hf']
        exact ⟨trivial, h1, trivial, by simp [marks_append, marks, h3]⟩
      | none =>
        simp only [Shared.ConsumeClaim, ConsumeClaim, hl, hl', hf, hf']
        exact ih _ _ h1 rfl (by simp [marks_append, marks, h3])

/-- C8, as the code has it: `NewConsumerGroupHandler` stores the map it is
given; `Setup` and `Cleanup` return `nil` and change nothing; `ConsumeClaim`
does not write to the registry itself: the heap it returns with, the registry
in it, is the one left by the handler calls of the run made one after the
other, so the registry is unchanged when none of the handlers called changes
it, whether the result is `nil` or an error. -/
theorem registry_changed_by_handlers_only {V σ : Type} (call : V → ConsumerFn (Heap V σ))
    (reg : GoMap (ConsumerFn σ)) (ctx : Context) (msgs : List ConsumerMessage)
    (st : SharedState V σ) :
    (NewConsumerGroupHandler reg).handlers = reg ∧
      Setup st = (none, st) ∧ Cleanup st = (none, st) ∧
      ∃ new, (Shared.ConsumeClaim call ctx msgs st).2.log = st.log ++ new ∧
        (Shared.ConsumeClaim call ctx msgs st).2.heap = stateAfter (invocations new) st.heap ∧
        ((∀ x ∈ invocations new, ∀ h : Heap V σ, (x.1 x.2.1 x.2.2 h).2.handlers = h.handlers) →
          (Shared.ConsumeClaim call ctx msgs st).2.heap.handlers = st.heap.handlers) := by
  obtain ⟨new, h1, h2⟩ := shared_heap_after call ctx msgs st
  refine ⟨rfl, rfl, rfl, new, h1, h2, fun h => ?_⟩
  rw [h2]
  exact stateAfter_handlers (invocations new) st.heap h

/-- C8 as stated fails: with `map[string]ConsumerFn{topic: drop}`, where `drop`
deletes the topic of its message from the map, `ConsumeClaim` on one message
returns `nil` and on two messages returns the missing-handler error for the
second, and in both runs the registry, which had the key `my-topic`, has no
key left. -/
theorem registry_read_only_counterexample :
    dropStart.heap.handlers.keys = ["my-topic"] ∧
    (Shared.ConsumeClaim callFn ⟨7⟩ [sample topic 0] dropStart).1 = none ∧
    (Shared.ConsumeClaim callFn ⟨7⟩ [sample topic 0] dropStart).2.heap.handlers.keys = [] ∧
    marks (Shared.ConsumeClaim callFn ⟨7⟩ [sample topic 0] dropStart).2.log
      = [(sample topic 0, "")] ∧
    (Shared.ConsumeClaim callFn ⟨7⟩ [sample topic 0, sample topic 1] dropStart).1
      = some (GoError.errorString "missing handler for topic: my-topic") ∧
    (Shared.ConsumeClaim callFn ⟨7⟩ [sample topic 0, sample topic 1]
      dropStart).2.heap.handlers.keys = [] := by
  decide

/-- C9: there is a longest prefix `p` of the claimed messages that is handled
without error (each topic registered, each handler call returning no error);
the acknowledgments are those of `p`, in order; the handlers are called on `p`
and then on the failing message when the run stops by a handler error; and
`ConsumeClaim` returns `nil` exactly when `p` is the whole sequence. -/
theorem consumeClaim_acknowledged_segment {σ : Type} (ctx : Context)
    (msgs : List ConsumerMessage) (st : State σ) :
    ∃ p, p <+: msgs ∧ (handleAll st.h.handlers ctx p st.world).isSome ∧
      (∀ q, q <+: msgs → (handleAll st.h.handlers ctx q st.world).isSome →
        q.length ≤ p.length) ∧
      marks (ConsumeClaim ctx msgs st).2.log = marks st.log ++ p.map (fun m => (m, "")) ∧
      (invocations (ConsumeClaim ctx msgs st).2.log).map (fun c => c.2.2)
        = (invocations st.log).map (fun c => c.2.2) ++ p
            ++ failing st.h.handlers msgs p.length ∧
      ((ConsumeClaim ctx msgs st).1 = none ↔ p = msgs) := by
  rcases handleAll_cases st.h.handlers ctx msgs st.world with
    ⟨w, h⟩ | ⟨pre, m, post, w1, hmsgs, hpre, hstop⟩
  · refine ⟨msgs, List.prefix_refl _, by simp [h], fun q hq _ => hq.length_le, ?_, ?_, ?_⟩
    · rw [claim_runs_all ctx msgs st w h]
      simp [marks_append, marks_okLog _ _ _ _ _ h]
    · rw [claim_runs_all ctx msgs st w h]
      simp [invocations_append, invocations_okLog, calls_messages _ _ _ _ _ h, failing]
    · rw [claim_runs_all ctx msgs st w h]
      simp
  · subst hmsgs
    have hne : pre ≠ pre ++ m :: post := by
      intro h
      have := congrArg List.length h
      simp at this
    refine ⟨pre, List.prefix_append _ _, by simp [hpre], ?_, ?_, ?_, ?_⟩
    · intro q hq hok
      exact handled_le_of_stop _ ctx pre post q m _
        (handleAll_stop _ ctx pre m _ w1 hpre hstop) hq hok
    · rcases hstop with hl | ⟨f, e, w2, hl, hf⟩
      · rw [claim_stops_missing ctx pre post m st w1 hpre hl]
        simp [marks_append, marks_okLog _ _ _ _ _ hpre]
      · rw [claim_stops_error ctx pre post m st w1 w2 f e hpre hl hf]
        simp [marks_append, marks_okLog _ _ _ _ _ hpre, marks]
    · rcases hstop with hl | ⟨f, e, w2, hl, hf⟩
      · rw [claim_stops_missing ctx pre post m st w1 hpre hl]
        simp [invocations_append, invocations_okLog, calls_messages _ _ _ _ _ hpre,
          failing, hl]
      · rw [claim_stops_error ctx pre post m st w1 w2 f e hpre hl hf]
        simp [invocations_append, invocations_okLog, calls_messages _ _ _ _ _ hpre,
          failing, hl, invocations]
    · rcases hstop with hl | ⟨f, e, w2, hl, hf⟩
      · rw [claim_stops_missing ctx pre post m st w1 hpre hl]
        simp [hne]
      · rw [claim_stops_error ctx pre post m st w1 w2 f e hpre hl hf]
        simp [hne]

/-! ## Lemmas on splitting -/

theorem Count_eq_count {α : Type} [DecidableEq α] (sep : α) (s : List α) :
    Count sep s = s.count sep := by
  induction s with
  | nil => rfl
  | cons c cs ih =>
    by_cases h : c = sep
    · simp [Count, h, ih, Nat.add_comm]
    · simp [Count, h, ih, List.count_cons]

theorem Count_le_length {α : Type} [DecidableEq α] (sep : α) (s : List α) :
    Count sep s ≤ s.length := by
  rw [Count_eq_count]
  exact List.count_le_length sep s

theorem Index_none {α : Type} [DecidableEq α] (sep : α) (s : List α)
    (h : Index sep s = none) : sep ∉ s := by
  induction s with
  | nil => simp
  | cons c cs ih =>
    by_cases hc : c = sep
    · simp [Index, hc] at h
    · simp only [Index, hc, if_false, Option.map_eq_none'] at h
      simp [ih h, Ne.symm hc]

theorem Index_some {α : Type} [DecidableEq α] (sep : α) (s : List α) :
    ∀ m, Index sep s = some m →
      sep ∉ s.take m ∧ s = s.take m ++ sep :: s.drop (m + 1) := by
  induction s with
  | nil => intro m h; simp [Index] at h
  | cons c cs ih =>
    intro m h
    by_cases hc : c = sep
    · simp only [Index, hc, if_true, Option.some.injEq] at h
      subst h
      simp [hc]
    · simp only [Index, hc, if_false, Option.map_eq_some'] at h
      obtain ⟨m', hm', rfl⟩ := h
      obtain ⟨h1, h2⟩ := ih m' hm'
      refine ⟨?_, ?_⟩
      · simp [List.take_succ_cons, h1, Ne.symm hc]
      · simp only [List.take_succ_cons, List.drop_succ_cons, List.cons_append]
        rw [← h2]

/-- The loop of `genSplit` cuts at every separator when it is allowed as many
cuts as there are separators. -/
theorem genSplitLoop_spec {α : Type} [DecidableEq α] (sep : α) :
    ∀ (k : Nat) (s : List α), s.count sep = k →
      (genSplitLoop sep k s).length = k + 1 ∧
      (∀ a ∈ genSplitLoop sep k s, sep ∉ a) ∧
      List.intercalate [sep] (genSplitLoop sep k s) = s := by
  intro k
  induction k with
  | zero =>
    intro s hs
    refine ⟨rfl, ?_, by simp [genSplitLoop, List.intercalate]⟩
    intro a ha
    simp only [genSplitLoop, List.mem_singleton] at ha
    subst ha
    exact List.count_eq_zero.mp hs
  | succ k ih =>
    intro s hs
    cases hi : Index sep s with
    | none =>
      have := List.count_eq_zero.mpr (Index_none sep s hi)
      omega
    | some m =>
      obtain ⟨h1, h2⟩ := Index_some sep s m hi
      have hc : (s.drop (m + 1)).count sep = k := by
        have h3 := congrArg (List.count sep) h2
        rw [List.count_append, List.count_cons_self, List.count_eq_zero.mpr h1] at h3
        omega
      obtain ⟨i1, i2, i3⟩ := ih (s.drop (m + 1)) hc
      simp only [genSplitLoop, hi]
      refine ⟨by simp [i1], ?_, ?_⟩
      · intro a ha
        rcases List.mem_cons.mp ha with rfl | ha
        · exact h1
        · exact i2 a ha
      · cases hg : genSplitLoop sep k (s.drop (m + 1)) with
        | nil => simp [hg] at i1
        | cons b bs =>
          rw [hg] at i3
          simp only [List.intercalate, List.intersperse, List.flatten] at i3 ⊢
          rw [i3]
          simpa using h2.symm

theorem genSplit_eq {α : Type} [DecidableEq α] (sep : α) (s : List α) :
    genSplit sep s = genSplitLoop sep (s.count sep) s := by
  have := Count_le_length sep s
  simp only [genSplit, Count_eq_count] at *
  rw [if_neg (by omega)]
  simp

theorem Join_data (elems : List String) (sep : String) :
    (Join elems sep).data = List.intercalate sep.data (elems.map String.data) := by
  induction elems with
  | nil => simp [Join, List.intercalate]
  | cons a rest ih =>
    cases rest with
    | nil => simp [Join, List.intercalate]
    | cons b rest =>
      simp only [Join, String.data_append, ih]
      simp [List.intercalate, List.intersperse, List.flatten]

/-- What `strings.Split(s, ",")` returns. -/
theorem Split_spec (s : String) :
    (∀ a ∈ Split s ',', ',' ∉ a.data) ∧ Join (Split s ',') "," = s ∧
      (Split s ',').length = s.data.count ',' + 1 := by
  obtain ⟨h1, h2, h3⟩ := genSplitLoop_spec ',' (s.data.count ',') s.data rfl
  refine ⟨?_, ?_, ?_⟩
  · intro a ha
    simp only [Split, genSplit_eq, List.mem_map] at ha
    obtain ⟨l, hl, rfl⟩ := ha
    exact h2 l hl
  · apply String.ext
    rw [Join_data]
    simp only [Split, genSplit_eq, List.map_map]
    have : (String.data ∘ String.mk) = (id : List Char → List Char) := rfl
    rw [this, List.map_id]
    exact h3
  · simp [Split, genSplit_eq, h1]

/-! ## Lemmas on the topic list -/

theorem fillTopics_spec {V : Type} (entries : List (String × V)) :
    ∀ (topics : List String) (i : Nat), i + entries.length ≤ topics.length →
      fillTopics entries topics i
        = some (topics.take i ++ entries.map Prod.fst ++ topics.drop (i + entries.length)) := by
  induction entries with
  | nil => intro topics i _; simp [fillTopics]
  | cons e rest ih =>
    intro topics i h
    obtain ⟨k, v⟩ := e
    simp only [List.length_cons] at h
    have hi : i < topics.length := by omega
    simp only [fillTopics, sliceSet, hi, if_true]
    rw [ih (topics.set i k) (i + 1) (by simp; omega)]
    have h1 : (topics.set i k).take (i + 1) = topics.take i ++ [k] := by
      rw [List.set_eq_take_append_cons_drop, if_pos hi, List.take_append_eq_append_take]
      simp [List.take_take, Nat.min_eq_left (Nat.le_of_lt hi)]
    have h2 : (topics.set i k).drop (i + 1 + rest.length) = topics.drop (i + 1 + rest.length) :=
      List.drop_set_of_lt k topics (by omega)
    rw [h1, h2]
    simp [Nat.add_assoc, Nat.add_comm 1]

theorem lookupEntries_isSome {V : Type} (k : String) (entries : List (String × V)) :
    (GoMap.lookupEntries k entries).isSome ↔ k ∈ entries.map Prod.fst := by
  induction entries with
  | nil => simp [GoMap.lookupEntries]
  | cons e rest ih =>
    obtain ⟨k', v⟩ := e
    by_cases h : k' = k
    · simp [GoMap.lookupEntries, h]
    · simp [GoMap.lookupEntries, h, ih, Ne.symm h]

/-- `InitConsumerGroup` does not panic: the topic list it builds is the key
list of the map. -/
theorem InitConsumerGroup_eq {κ σ : Type} (env : String → String) (config : κ)
    (group : String) (handlers : Option (GoMap (ConsumerFn σ))) :
    InitConsumerGroup env config group handlers =
      some { brokers := Split (env "KAFKA_CONSUMER_ADDRESS") ','
             group := group
             config := config
             topics := (handlers.getD GoMap.empty).keys
             handler := NewConsumerGroupHandler (handlers.getD GoMap.empty) } := by
  have key : ∀ m : GoMap (ConsumerFn σ),
      fillTopics m.entries (List.replicate m.len "") 0 = some m.keys := by
    intro m
    rw [fillTopics_spec m.entries _ 0 (by simp [GoMap.len])]
    simp [GoMap.len, GoMap.keys]
  cases handlers with
  | none => simp [InitConsumerGroup, key, GoMap.empty, GoMap.keys, fillTopics, GoMap.len]
  | some m => simp [InitConsumerGroup, key]

/-! ## Configuration assembly -/

/-- C7: the broker addresses given to the consumer-group runner and to the
producer runner are the value of the environment variable split at every
comma: no address contains a comma, joining them with a comma gives the value
back, and there is one address more than there are commas, so an empty value
gives one empty address. -/
theorem broker_address_parsing {κ σ : Type} (env : String → String) (config : κ)
    (group : String) (handlers : Option (GoMap (ConsumerFn σ))) :
    (InitConsumerGroup env config group handlers).map (fun r => r.brokers)
        = some (Split (env "KAFKA_CONSUMER_ADDRESS") ',') ∧
      (InitProducer env config).brokers = Split (env "KAFKA_PRODUCER_ADDRESS") ',' ∧
      (∀ s : String,
        (∀ a ∈ Split s ',', ',' ∉ a.data) ∧ Join (Split s ',') "," = s ∧
          (Split s ',').length = s.data.count ',' + 1) ∧
      Split "" ',' = [""] := by
  refine ⟨?_, rfl, Split_spec, by decide⟩
  rw [InitConsumerGroup_eq]
  rfl

/-- C10: `InitConsumerGroup` returns a runner for every handler map; its topic
list holds every key of the map once and nothing else, as many topics as there
are handlers; a `nil` map gives no topic and an empty registry; and every
topic of the list has a handler in the registry of the runner. -/
theorem initConsumerGroup_topics {κ σ : Type} (env : String → String) (config : κ)
    (group : String) (handlers : Option (GoMap (ConsumerFn σ))) :
    ∃ r, InitConsumerGroup env config group handlers = some r ∧
      r.handler.handlers = handlers.getD GoMap.empty ∧
      (∀ k, r.topics.count k = if (r.handler.handlers.lookup k).isSome then 1 else 0) ∧
      r.topics.length = r.handler.handlers.len ∧
      (handlers = none → r.topics = [] ∧ r.handler.handlers.entries = []) ∧
      (∀ t ∈ r.topics, (r.handler.handlers.lookup t).isSome) := by
  refine ⟨_, InitConsumerGroup_eq env config group handlers, rfl, ?_, ?_, ?_, ?_⟩
  · intro k
    simp only [NewConsumerGroupHandler, GoMap.lookup, GoMap.keys]
    by_cases hk : k ∈ (handlers.getD GoMap.empty).entries.map Prod.fst
    · rw [if_pos ((lookupEntries_isSome k _).mpr hk)]
      exact List.count_eq_one_of_mem (handlers.getD GoMap.empty).nodup hk
    · rw [if_neg (fun h => hk ((lookupEntries_isSome k _).mp h))]
      exact List.count_eq_zero.mpr hk
  · simp [GoMap.keys, GoMap.len, NewConsumerGroupHandler]
  · intro h
    subst h
    exact ⟨rfl, rfl⟩
  · intro t ht
    exact (lookupEntries_isSome t _).mpr ht

/-! ## Lemmas on the emission loop -/

theorem sent_append (a b : List Ev) : sent (a ++ b) = sent a ++ sent b := by
  induction a with
  | nil => rfl
  | cons e t ih => cases e <;> simp [sent, ih]

theorem sent_map_sent (ms : List ProducerMessage) : sent (ms.map Ev.sent) = ms := by
  induction ms with
  | nil => rfl
  | cons m t ih => simp [sent, ih]

theorem run_append (a b : List Action) :
    ∀ st, run st (a ++ b) = (run st a).bind (fun s => run s b) := by
  induction a with
  | nil => intro st; rfl
  | cons x t ih =>
    intro st
    simp only [List.cons_append, run]
    cases step st x with
    | none => rfl
    | some s => exact ih s

/-- One timer firing handled with no other step in between. -/
theorem run_cycle (st : LoopState) (hpc : st.pc = Pc.select) :
    run st cycle = some { st with trace := st.trace ++ batch.map Ev.sent } := by
  obtain ⟨pc, d, tr⟩ := st
  simp only at hpc
  subst hpc
  simp [cycle, run, step, List.replicate, batch, message, topic]
  decide

/-- The loop's own steps for `n` timer firings, with no other step in between. -/
theorem run_cycles (n : Nat) :
    ∀ st : LoopState, st.pc = Pc.select →
      run st (List.replicate n cycle).flatten
        = some { st with trace := st.trace ++ ((List.replicate n batch).flatten).map Ev.sent } := by
  induction n with
  | zero => intro st _; simp [run]
  | succ n ih =>
    intro st hpc
    rw [List.replicate_succ, List.flatten_cons, run_append, run_cycle st hpc]
    have := ih { st with trace := st.trace ++ batch.map Ev.sent } hpc
    simp only [Option.some_bind]
    rw [this]
    simp [List.replicate_succ]

/-- The signal can fire in every state, and leaves the loop where it is. -/
theorem step_fire_same (st : LoopState) :
    ∃ st1, step st Action.fire = some st1 ∧ SameLoop st1 st := by
  by_cases hd : st.done = true
  · exact ⟨st, by simp [step, hd], rfl, rfl⟩
  · exact ⟨{ st with done := true, trace := st.trace ++ [Ev.fired] }, by simp [step, hd],
      rfl, by simp [sent_append, sent]⟩

/-- The timer case and the steps of the inner loop do not depend on the signal. -/
theorem step_loop_same (a : Action) (st s2 st1 : LoopState) (hf : a ≠ Action.fire)
    (hd : a ≠ Action.caseDone) (hR : SameLoop st s2) (hs : step st a = some st1) :
    ∃ s2', step s2 a = some s2' ∧ SameLoop st1 s2' := by
  obtain ⟨pc, d, tr⟩ := st
  obtain ⟨pc2, d2, tr2⟩ := s2
  obtain ⟨hpc, hsent⟩ := hR
  simp only at hpc hsent
  subst hpc
  cases a with
  | fire => exact absurd rfl hf
  | caseDone => exact absurd rfl hd
  | caseTimer =>
    cases pc with
    | select =>
      simp only [step, Option.some.injEq] at hs
      subst hs
      exact ⟨{ pc := Pc.body 0, done := d2, trace := tr2 }, rfl, rfl, hsent⟩
    | body x => simp [step] at hs
    | exited => simp [step] at hs
  | iter =>
    cases pc with
    | select => simp [step] at hs
    | exited => simp [step] at hs
    | body x =>
      by_cases hx : x < 5
      · simp only [step, hx, if_true, Option.some.injEq] at hs
        subst hs
        refine ⟨{ pc := Pc.body (x + 1), done := d2, trace := tr2 ++ [Ev.sent (message x)] },
          by simp only [step, hx, if_true], rfl, ?_⟩
        simp only [sent_append, hsent]
      · simp only [step, hx, if_false, Option.some.injEq] at hs
        subst hs
        exact ⟨{ pc := Pc.select, done := d2, trace := tr2 },
          by simp only [step, hx, if_false], rfl, hsent⟩

theorem loopSteps_cons_fire (rest : List Action) :
    loopSteps (Action.fire :: rest) = loopSteps rest := rfl

theorem loopSteps_cons (a : Action) (rest : List Action) (hf : a ≠ Action.fire) :
    loopSteps (a :: rest) = a :: loopSteps rest := by
  simp [loopSteps, List.filter_cons, hf]

/-- A schedule whose own steps of the loop can be run alone can be run, and
does for the loop what those steps do alone. -/
theorem run_with_fire (acts : List Action) :
    ∀ st s2 s2', run s2 (loopSteps acts) = some s2' → SameLoop st s2 →
      (∀ a ∈ acts, a ≠ Action.caseDone) →
      ∃ st', run st acts = some st' ∧ SameLoop st' s2' := by
  induction acts with
  | nil =>
    intro st s2 s2' h hR _
    simp only [loopSteps, List.filter_nil, run, Option.some.injEq] at h
    subst h
    exact ⟨st, rfl, hR⟩
  | cons a rest ih =>
    intro st s2 s2' h hR hno
    have hno' : ∀ a ∈ rest, a ≠ Action.caseDone := fun x hx => hno x (List.mem_cons_of_mem _ hx)
    by_cases hf : a = Action.fire
    · subst hf
      rw [loopSteps_cons_fire] at h
      obtain ⟨st1, hs, h1⟩ := step_fire_same st
      obtain ⟨st', hr, hR'⟩ := ih st1 s2 s2' h ⟨h1.1.trans hR.1, h1.2.trans hR.2⟩ hno'
      exact ⟨st', by simp only [run, hs, hr], hR'⟩
    · rw [loopSteps_cons a rest hf] at h
      simp only [run] at h
      cases hs : step s2 a with
      | none => simp [hs] at h
      | some s2a =>
        simp only [hs] at h
        obtain ⟨st1, hstep, hR1⟩ :=
          step_loop_same a s2 st s2a hf (hno a (List.mem_cons_self _ _)) ⟨hR.1.symm, hR.2.symm⟩ hs
        obtain ⟨st', hr, hR'⟩ := ih st1 s2a s2' h ⟨hR1.1.symm, hR1.2.symm⟩ hno'
        exact ⟨st', by simp only [run, hstep, hr], hR'⟩

/-! ## Periodic producer loop -/

/-- C4: every schedule in which the loop, starting at its `select`, handles
`n` timer firings (the signal may fire at any point in between) can be run,
and the messages it sends are `n` times the five messages `message-0` to
`message-4` of topic `my-topic`, in that order: `5 * n` messages, the loop
being back at its `select`. -/
theorem emission_batches (n : Nat) (st : LoopState) (acts : List Action)
    (hpc : st.pc = Pc.select)
    (hacts : loopSteps acts = (List.replicate n cycle).flatten) :
    ∃ st', run st acts = some st' ∧
      sent st'.trace = sent st.trace ++ (List.replicate n batch).flatten ∧
      (sent st'.trace).length = (sent st.trace).length + 5 * n ∧
      st'.pc = Pc.select := by
  have hno : ∀ a ∈ acts, a ≠ Action.caseDone := by
    intro a ha hd
    subst hd
    have : Action.caseDone ∈ loopSteps acts := by
      simp [loopSteps, List.mem_filter, ha]
    rw [hacts] at this
    simp only [List.mem_flatten, List.mem_replicate] at this
    obtain ⟨l, ⟨_, rfl⟩, hl⟩ := this
    simp [cycle] at hl
  have hr := run_cycles n st hpc
  rw [← hacts] at hr
  obtain ⟨st', hrun, hpc2, hsent2⟩ := run_with_fire acts st st _ hr ⟨rfl, rfl⟩ hno
  have h1 : sent st'.trace = sent st.trace ++ (List.replicate n batch).flatten := by
    rw [hsent2]
    show sent (st.trace ++ _) = _
    rw [sent_append, sent_map_sent]
  refine ⟨st', hrun, h1, ?_, ?_⟩
  · rw [h1, List.length_append, List.length_flatten]
    simp [batch, Nat.mul_comm]
  · rw [hpc2]
    exact hpc

theorem emission_batches_witness :
    init.pc = Pc.select ∧
    loopSteps [Action.caseTimer, Action.iter, Action.iter, Action.fire, Action.iter,
        Action.iter, Action.iter, Action.iter]
      = (List.replicate 1 cycle).flatten ∧
    ∃ st', run init [Action.caseTimer, Action.iter, Action.iter, Action.fire, Action.iter,
        Action.iter, Action.iter, Action.iter] = some st' ∧
      sent st'.trace = sent init.trace ++ (List.replicate 1 batch).flatten ∧
      (sent st'.trace).length = (sent init.trace).length + 5 * 1 ∧
      st'.pc = Pc.select :=
  ⟨rfl, by decide,
    emission_batches 1 init
      [Action.caseTimer, Action.iter, Action.iter, Action.fire, Action.iter,
        Action.iter, Action.iter, Action.iter]
      rfl (by decide)⟩

/-- Every step keeps the invariant. -/
theorem step_inv (a : Action) (st st1 : LoopState) (hI : Inv st)
    (hs : step st a = some st1) : Inv st1 := by
  obtain ⟨pc, d, tr⟩ := st
  obtain ⟨h1, h2, h3⟩ := hI
  simp only at h1 h2 h3
  cases a with
  | fire =>
    cases d with
    | true =>
      simp only [step, if_true, Option.some.injEq] at hs
      subst hs
      exact ⟨h1, h2, h3⟩
    | false =>
      simp only [step, Bool.false_eq_true, if_false, Option.some.injEq] at hs
      subst hs
      refine ⟨fun hp => ?_, fun hp => ?_, fun _ => by simp⟩
      · simpa using h1 hp
      · exact absurd (h2 hp).1 (by simp)
  | caseDone =>
    cases pc with
    | body x => simp [step] at hs
    | exited => simp [step] at hs
    | select =>
      cases d with
      | false => simp [step] at hs
      | true =>
        simp only [step, if_true, Option.some.injEq] at hs
        subst hs
        refine ⟨fun hp => absurd rfl hp, fun _ => ⟨rfl, tr, rfl, h1 (by simp)⟩, fun _ => ?_⟩
        simpa using h3 rfl
  | caseTimer =>
    cases pc with
    | body x => simp [step] at hs
    | exited => simp [step] at hs
    | select =>
      simp only [step, Option.some.injEq] at hs
      subst hs
      exact ⟨fun _ => h1 (by simp), fun hp => by simp at hp, h3⟩
  | iter =>
    cases pc with
    | select => simp [step] at hs
    | exited => simp [step] at hs
    | body x =>
      by_cases hx : x < 5
      · simp only [step, hx, if_true, Option.some.injEq] at hs
        subst hs
        refine ⟨fun _ => ?_, fun hp => by simp at hp, fun hd => ?_⟩
        · simpa using h1 (by simp)
        · simpa using h3 hd
      · simp only [step, hx, if_false, Option.some.injEq] at hs
        subst hs
        exact ⟨fun _ => h1 (by simp), fun hp => by simp at hp, h3⟩

/-- Every state of an execution satisfies the invariant. -/
theorem run_inv (acts : List Action) :
    ∀ st st', Inv st → run st acts = some st' → Inv st' := by
  induction acts with
  | nil =>
    intro st st' hI h
    simp only [run, Option.some.injEq] at h
    subst h
    exact hI
  | cons a rest ih =>
    intro st st' hI h
    simp only [run] at h
    cases hs : step st a with
    | none => simp [hs] at h
    | some st1 =>
      simp only [hs] at h
      exact ih st1 st' (step_inv a st st1 hI hs) h

theorem init_inv : Inv init := by
  refine ⟨fun _ => by simp [init], fun hp => ?_, fun hd => ?_⟩
  · simp [init] at hp
  · simp [init] at hd

theorem after_last (e : Ev) (tr : List Ev) (h : e ∉ tr) : after e (tr ++ [e]) = [] := by
  induction tr with
  | nil => simp [after]
  | cons x t ih =>
    have hx : x ≠ e := fun hx => h (by simp [hx])
    have ht : e ∉ t := fun ht => h (by simp [ht])
    simp [after, hx, ih ht]

theorem after_not_mem (e : Ev) (tr : List Ev) (h : e ∉ tr) : after e tr = [] := by
  induction tr with
  | nil => rfl
  | cons x t ih =>
    have hx : x ≠ e := fun hx => h (by simp [hx])
    have ht : e ∉ t := fun ht => h (by simp [ht])
    simp [after, hx, ih ht]

/-- C5, as the code has it: in every execution from the start of the loop, the
goroutine has returned exactly when its return is in the trace; no message is
sent after that return; the return takes place only once the signal has fired,
and after it no step changes the state; and at every `select` reached with the
signal fired the cancellation case is enabled and makes the goroutine return
with nothing more sent. -/
theorem emission_stops_at_exit (acts : List Action) (st' : LoopState)
    (h : run init acts = some st') :
    (st'.pc = Pc.exited ↔ Ev.exited ∈ st'.trace) ∧
      sent (after Ev.exited st'.trace) = [] ∧
      (st'.pc = Pc.exited →
        Ev.fired ∈ st'.trace ∧ ∀ a s, step st' a = some s → s = st') ∧
      (st'.pc = Pc.select → st'.done = true →
        ∃ s, step st' Action.caseDone = some s ∧ s.pc = Pc.exited ∧
          sent s.trace = sent st'.trace) := by
  obtain ⟨h1, h2, h3⟩ := run_inv acts init st' init_inv h
  refine ⟨⟨fun hp => ?_, fun hm => ?_⟩, ?_, fun hp => ⟨h3 (h2 hp).1, fun a s hs => ?_⟩,
    fun hp hd => ?_⟩
  · obtain ⟨_, tr, htr, _⟩ := h2 hp
    rw [htr]
    simp
  · by_contra hp
    exact h1 hp hm
  · by_cases hp : st'.pc = Pc.exited
    · obtain ⟨_, tr, htr, hno⟩ := h2 hp
      rw [htr, after_last _ _ hno]
      rfl
    · rw [after_not_mem _ _ (h1 hp)]
      rfl
  · have hd := (h2 hp).1
    cases a <;> simp [step, hp, hd] at hs
    exact hs.symm
  · refine ⟨{ st' with pc := Pc.exited, trace := st'.trace ++ [Ev.exited] }, ?_, rfl, ?_⟩
    · simp [step, hp, hd]
    · simp [sent_append, sent]

theorem emission_stops_at_exit_witness :
    run init [Action.caseTimer, Action.iter, Action.iter, Action.fire, Action.iter,
        Action.iter, Action.iter, Action.iter, Action.caseDone]
      = some { pc := Pc.exited, done := true,
               trace := [Ev.sent (message 0), Ev.sent (message 1), Ev.fired,
                 Ev.sent (message 2), Ev.sent (message 3), Ev.sent (message 4),
                 Ev.exited] } ∧
    sent (after Ev.exited [Ev.sent (message 0), Ev.sent (message 1), Ev.fired,
      Ev.sent (message 2), Ev.sent (message 3), Ev.sent (message 4), Ev.exited]) = [] :=
  ⟨by decide,
    (emission_stops_at_exit
      [Action.caseTimer, Action.iter, Action.iter, Action.fire, Action.iter,
        Action.iter, Action.iter, Action.iter, Action.caseDone]
      { pc := Pc.exited, done := true,
        trace := [Ev.sent (message 0), Ev.sent (message 1), Ev.fired,
          Ev.sent (message 2), Ev.sent (message 3), Ev.sent (message 4), Ev.exited] }
      (by decide)).2.1⟩

/-- C5 as stated fails: a signal that fires when two messages of a batch have
been sent is followed by the three other messages of the batch; and at a
`select` where the signal has fired and the timer case is taken, the whole
batch is sent after the signal, the goroutine returning only afterwards. -/
theorem emission_after_signal_counterexample :
    (run init [Action.caseTimer, Action.iter, Action.iter, Action.fire, Action.iter,
        Action.iter, Action.iter]).map (fun s => (s.pc, sent (after Ev.fired s.trace)))
      = some (Pc.body 5,
          [ { Topic := "my-topic", Value := "message-2" },
            { Topic := "my-topic", Value := "message-3" },
            { Topic := "my-topic", Value := "message-4" } ]) ∧
    (run init [Action.fire, Action.caseTimer, Action.iter, Action.iter, Action.iter,
        Action.iter, Action.iter, Action.iter, Action.caseDone]).map
          (fun s => (s.pc, sent (after Ev.fired s.trace)))
      = some (Pc.exited,
          [ { Topic := "my-topic", Value := "message-0" },
            { Topic := "my-topic", Value := "message-1" },
            { Topic := "my-topic", Value := "message-2" },
            { Topic := "my-topic", Value := "message-3" },
            { Topic := "my-topic", Value := "message-4" } ]) := by
  decide

end SaramaExample
